import Mathlib

/-
  Verification of the brent-oil-analysis repository.

  Shallow embedding conventions:
  - Calendar dates are day numbers (Int); moment(a).diff(moment(b), 'days')
    on day-granular dates is the integer difference a - b.
  - JavaScript numbers are modelled as exact rationals (ℚ); a value that may
    be undefined or NaN is modelled as Option ℚ (none = undefined/NaN).
  - The JS idiom `x || 0` (0 and NaN/undefined are falsy) becomes jsOrZero,
    `x || null` becomes jsOrNull, and subtraction involving a possibly
    missing operand (which yields NaN in JS) becomes jsSub.
-/

namespace BrentOil

/-- A detected change point as consumed by the dashboard components:
a date (day number) and a posterior probability. -/
structure ChangePoint where
  date : Int
  probability : ℚ
deriving DecidableEq

/-- The impact record attached to an event by the backend; every field may be
absent on a given record (the frontend reads them with optional chaining). -/
structure Impact where
  price_before : Option ℚ
  price_after : Option ℚ
  percent_change : Option ℚ
  price_change : Option ℚ
  volatility_before : Option ℚ
  volatility_after : Option ℚ
deriving DecidableEq

/-- A catalogued event: a date and an optional impact record
(events without impact data are filtered out by the components). -/
structure Event where
  date : Int
  impact : Option Impact
deriving DecidableEq

/-- JS `x || 0`: undefined/NaN and 0 are falsy, both map to 0. -/
def jsOrZero (x : Option ℚ) : ℚ := x.getD 0

/-- JS `x || null`: undefined/NaN and 0 are falsy, both map to null. -/
def jsOrNull (x : Option ℚ) : Option ℚ :=
  match x with
  | none => none
  | some v => if v = 0 then none else some v

/-- JS subtraction where either operand may be undefined (result NaN). -/
def jsSub : Option ℚ → Option ℚ → Option ℚ
  | some a, some b => some (a - b)
  | _, _ => none

/-- moment(a).diff(moment(b), 'days') for day-granular dates. -/
def dayDiff (a b : Int) : Int := a - b

/-- ImpactMetrics.js line 25-27 (and EvenTimeline.js line 30-32):
changePoints.find(cp => Math.abs(moment(cp.date).diff(moment(event.date),
'days')) <= 30) — the first change point in list order within 30 days. -/
def findAssociatedCP (changePoints : List ChangePoint) (eventDate : Int) :
    Option ChangePoint :=
  changePoints.find? (fun cp => (dayDiff cp.date eventDate).natAbs ≤ 30)

/-- One row of the impact table built by ImpactMetrics.js lines 29-36. -/
structure ImpactRow where
  event : Event
  changePointDetected : Bool
  changePointProbability : Option ℚ
  impactMagnitude : ℚ
  impactAbs : ℚ
  volatilityChange : ℚ
deriving DecidableEq

/-- ImpactMetrics.js lines 24-37: the per-event merge with change point
detection. changePointProbability is `associatedCP?.probability || null`,
volatilityChange is
`event.impact?.volatility_after - event.impact?.volatility_before || 0`. -/
def mkImpactRow (changePoints : List ChangePoint) (event : Event) : ImpactRow :=
  let associatedCP := findAssociatedCP changePoints event.date
  { event := event
    changePointDetected := associatedCP.isSome
    changePointProbability := jsOrNull (associatedCP.map ChangePoint.probability)
    impactMagnitude := jsOrZero (event.impact.bind Impact.percent_change)
    impactAbs := jsOrZero (event.impact.bind Impact.price_change)
    volatilityChange :=
      jsOrZero (jsSub (event.impact.bind Impact.volatility_after)
        (event.impact.bind Impact.volatility_before)) }

/-- ImpactMetrics.js lines 22-38: keep only events carrying an impact record,
build the merged rows, and sort by descending absolute impact magnitude
(`.sort((a, b) => Math.abs(b.impactMagnitude) - Math.abs(a.impactMagnitude))`). -/
def impactData (events : List Event) (changePoints : List ChangePoint) :
    List ImpactRow :=
  ((events.filter (fun e => e.impact.isSome)).map (mkImpactRow changePoints)).mergeSort
    (fun a b => |b.impactMagnitude| ≤ |a.impactMagnitude|)

/-- The volatility regime labels used by VolatilityChart. -/
inductive Regime where
  | Low
  | Normal
  | High
deriving DecidableEq

/-- VolatilityChart (frontend README lines 131-137 and 143-153):
`value > avg * 1.2 ? 'High' : value < avg * 0.8 ? 'Low' : 'Normal'`. -/
def classifyRegime (value historicalAvg : ℚ) : Regime :=
  if historicalAvg * (12/10) < value then Regime.High
  else if value < historicalAvg * (8/10) then Regime.Low
  else Regime.Normal

/-- The query parameters of the GET /change-points request. -/
structure ChangePointsRequest where
  min_probability : ℚ
deriving DecidableEq

/-- api.js lines 68-71: `getChangePoints: (minProbability = 0.8) =>
api.get('/change-points', { params: { min_probability: minProbability } })`. -/
def getChangePoints (minProbability : ℚ := 8/10) : ChangePointsRequest :=
  { min_probability := minProbability }

/-- Dashboard.js line 37: `useState(0.8)` — the initial minProbability filter. -/
def dashboardInitialMinProbability : ℚ := 8/10

/-- Modelled from the spec: the backend retention policy of the Posterior
Summarizer (§4.3, "retain only indices whose probability exceeds a
configurable threshold") is not part of src/; only its frontend callers are. -/
def retainChangePoints (threshold : ℚ) (cps : List ChangePoint) :
    List ChangePoint :=
  cps.filter (fun cp => threshold < cp.probability)

/-- ChangePointChart (frontend README lines 426-443): sort the change points
by descending probability and keep the first ten
(`[...changePoints].sort((a, b) => b.probability - a.probability).slice(0, 10)`);
the display-formatting fields added by the subsequent map do not alter
membership or order and are omitted. -/
def chartDataChangePoints (changePoints : List ChangePoint) : List ChangePoint :=
  (changePoints.mergeSort (fun a b => b.probability ≤ a.probability)).take 10

/-- Modelled from the spec: a PriceObservation (§3) — the Series Preprocessor
lives in the out-of-scope backend, not under src/. The numeric type is a
parameter so the development instantiates it with ℚ for concrete evaluation. -/
structure PriceObs (α : Type) where
  date : Int
  price : α
deriving DecidableEq

/-- Modelled from the spec: a ReturnObservation (§3), carrying the date and
the log return. -/
structure ReturnObs (α : Type) where
  date : Int
  log_return : α
deriving DecidableEq

/-- Modelled from the spec: validity of a price series per §4.1 — at least 2
observations, strictly increasing dates, strictly positive prices. -/
def validPriceSeries [LinearOrderedField α] (ps : List (PriceObs α)) : Prop :=
  2 ≤ ps.length ∧ ps.Chain' (fun a b => a.date < b.date) ∧ ∀ p ∈ ps, 0 < p.price

instance [LinearOrderedField α] [DecidableEq α] (ps : List (PriceObs α)) :
    Decidable (validPriceSeries ps) := by
  unfold validPriceSeries
  infer_instance

/-- Modelled from the spec: the return derivation of the Series Preprocessor
(§4.1, §8) — one ReturnObservation per consecutive pair of prices, valued
log(price_t / price_prev) and dated at the later observation. The logarithm
is passed as a parameter so the defining equation returns[i] =
log(prices[i+1] / prices[i]) is established for any logarithm function. -/
def computeReturns [Div α] (log : α → α) (ps : List (PriceObs α)) :
    List (ReturnObs α) :=
  (ps.zip ps.tail).map (fun ab => { date := ab.2.date
                                    log_return := log (ab.2.price / ab.1.price) })

/-- Modelled from the spec: a posterior-summarizer candidate, an index into
the return series paired with its posterior change-point probability. -/
abbrev Candidate := Nat × ℚ

/-- Modelled from the spec: pick the mode of the remaining candidates — the
highest-probability candidate, the earliest on ties (§4.3 collapses a run
onto its mode deterministically). -/
def pickMode : List Candidate → Option Candidate
  | [] => none
  | c :: cs => some (cs.foldl (fun best d => if best.2 < d.2 then d else best) c)

theorem pickMode_mem {l : List Candidate} {c : Candidate}
    (h : pickMode l = some c) : c ∈ l := by
  match l with
  | [] => simp [pickMode] at h
  | b :: bs =>
    simp only [pickMode, Option.some.injEq] at h
    subst h
    have key : ∀ (cs : List Candidate) (init : Candidate),
        cs.foldl (fun best d => if best.2 < d.2 then d else best) init = init ∨
        cs.foldl (fun best d => if best.2 < d.2 then d else best) init ∈ cs := by
      intro cs
      induction cs with
      | nil => intro init; left; rfl
      | cons x xs ih =>
        intro init
        simp only [List.foldl_cons]
        rcases ih (if init.2 < x.2 then x else init) with h1 | h1
        · rw [h1]
          by_cases hc : init.2 < x.2
          · right; simp [hc]
          · left; simp [hc]
        · right; exact List.mem_cons_of_mem x h1
    rcases key bs b with h1 | h1
    · rw [h1]; exact List.mem_cons_self b bs
    · exact List.mem_cons_of_mem b h1

/-- Modelled from the spec: greedy non-maximum suppression (§4.3) — repeatedly
emit the mode of the remaining candidates and discard every candidate closer
than the minimum-separation window to it (default window 5). -/
def nmsGreedy (minSep : Nat) (l : List Candidate) : List Candidate :=
  match hm : pickMode l with
  | none => []
  | some c =>
    c :: nmsGreedy minSep
      ((l.erase c).filter (fun d => minSep ≤ Nat.dist d.1 c.1))
termination_by l.length
decreasing_by
  have hc : c ∈ l := pickMode_mem hm
  calc ((l.erase c).filter (fun d => minSep ≤ Nat.dist d.1 c.1)).length
      ≤ (l.erase c).length := List.length_filter_le _ _
    _ = l.length - 1 := List.length_erase_of_mem hc
    _ < l.length := by
        have : 0 < l.length := List.length_pos.mpr (List.ne_nil_of_mem hc)
        omega

/-- Modelled from the spec: the Posterior Summarizer (§4.3) — keep the indices
whose probability exceeds the threshold (default 0.5), then apply
non-maximum suppression with the minimum-separation window (default 5). -/
def summarize (threshold : ℚ) (minSep : Nat) (probs : List ℚ) :
    List Candidate :=
  nmsGreedy minSep (probs.enum.filter (fun c => threshold < c.2))

/-- Modelled from the spec: re-expand a ChangePoint set into a per-index
posterior vector of the given length — the retained probability at each
retained index, zero elsewhere — so the Summarizer can be re-applied to its
own output (§8, idempotence property). -/
def posteriorOfChangePoints (n : Nat) (cps : List Candidate) : List ℚ :=
  (List.range n).map (fun i =>
    match cps.find? (fun c => c.1 = i) with
    | some c => c.2
    | none => 0)

/-! ## Theorems -/

/-- C2: the volatility regime label is a pure function of (value, baseline):
High iff value/baseline > 1.2, Low iff value/baseline < 0.8, Normal
otherwise; in particular a ratio of exactly 1.2 and a ratio of exactly 0.8
both yield Normal. -/
theorem classifyRegime_ratio (value baseline : ℚ) (h : 0 < baseline) :
    (classifyRegime value baseline = Regime.High ↔ 12/10 < value / baseline) ∧
    (classifyRegime value baseline = Regime.Low ↔ value / baseline < 8/10) ∧
    (classifyRegime value baseline = Regime.Normal ↔
      (8/10 ≤ value / baseline ∧ value / baseline ≤ 12/10)) ∧
    (value / baseline = 12/10 → classifyRegime value baseline = Regime.Normal) ∧
    (value / baseline = 8/10 → classifyRegime value baseline = Regime.Normal) := by
  have hHigh : baseline * (12/10) < value ↔ 12/10 < value / baseline := by
    rw [lt_div_iff h, mul_comm]
  have hLow : value < baseline * (8/10) ↔ value / baseline < 8/10 := by
    rw [div_lt_iff h, mul_comm]
  unfold classifyRegime
  split_ifs with h1 h2
  · have hr := hHigh.mp h1
    refine ⟨⟨fun _ => hr, fun _ => rfl⟩,
      ⟨fun hc => by simp at hc, fun hc => absurd hc (by linarith)⟩,
      ⟨fun hc => by simp at hc, fun hc => absurd hc.2 (by linarith)⟩,
      fun he => by rw [he] at hr; exact absurd hr (by norm_num),
      fun he => by rw [he] at hr; exact absurd hr (by norm_num)⟩
  · have hr := hLow.mp h2
    refine ⟨⟨fun hc => by simp at hc, fun hc => absurd hc (by linarith)⟩,
      ⟨fun _ => hr, fun _ => rfl⟩,
      ⟨fun hc => by simp at hc, fun hc => absurd hc.1 (by linarith)⟩,
      fun he => by rw [he] at hr; exact absurd hr (by norm_num),
      fun he => by rw [he] at hr; exact absurd hr (by norm_num)⟩
  · have hr1 : value / baseline ≤ 12/10 := le_of_not_lt (fun hc => h1 (hHigh.mpr hc))
    have hr2 : 8/10 ≤ value / baseline := le_of_not_lt (fun hc => h2 (hLow.mpr hc))
    refine ⟨⟨fun hc => by simp at hc, fun hc => absurd hc (by linarith)⟩,
      ⟨fun hc => by simp at hc, fun hc => absurd hc (by linarith)⟩,
      ⟨fun _ => ⟨hr2, hr1⟩, fun _ => rfl⟩,
      fun _ => rfl, fun _ => rfl⟩

/-- C2 witness: at value 6/5 and baseline 1 the ratio is exactly 1.2 and the
label is Normal. -/
theorem classifyRegime_ratio_witness : classifyRegime (6/5) 1 = Regime.Normal :=
  (classifyRegime_ratio (6/5) 1 (by norm_num)).2.2.2.1 (by norm_num)

/-- C3: the tolerance boundary is inclusive — an event with some change point
at exactly 30 days of absolute offset is matched; an event farther than 30
days from every change point yields changePointDetected = false with a null
changePointProbability. -/
theorem tolerance_boundary_inclusive (cps : List ChangePoint) (e : Event) :
    ((∃ cp ∈ cps, (dayDiff cp.date e.date).natAbs = 30) →
      (mkImpactRow cps e).changePointDetected = true) ∧
    ((∀ cp ∈ cps, 30 < (dayDiff cp.date e.date).natAbs) →
      (mkImpactRow cps e).changePointDetected = false ∧
      (mkImpactRow cps e).changePointProbability = none) := by
  constructor
  · rintro ⟨cp, hcp, h30⟩
    have hfind : (findAssociatedCP cps e.date).isSome = true := by
      rw [findAssociatedCP, List.find?_isSome]
      exact ⟨cp, hcp, by simp [h30]⟩
    simp [mkImpactRow, hfind]
  · intro hall
    have hfind : findAssociatedCP cps e.date = none := by
      rw [findAssociatedCP, List.find?_eq_none]
      intro cp hcp
      simp only [decide_eq_true_eq]
      exact not_le.mpr (hall cp hcp)
    simp [mkImpactRow, hfind, jsOrNull]

/-- C3 witness: an event at day 0 with a single change point at day 30 is
matched, and with a single change point at day 31 is unmatched with a null
probability. -/
theorem tolerance_boundary_inclusive_witness :
    (mkImpactRow [{ date := 30, probability := 9/10 }]
      { date := 0, impact := none }).changePointDetected = true ∧
    (mkImpactRow [{ date := 31, probability := 9/10 }]
      { date := 0, impact := none }).changePointDetected = false ∧
    (mkImpactRow [{ date := 31, probability := 9/10 }]
      { date := 0, impact := none }).changePointProbability = none := by
  have hfar : ∀ cp ∈ [({ date := 31, probability := 9/10 } : ChangePoint)],
      30 < (dayDiff cp.date (0 : Int)).natAbs := by
    intro cp hcp
    simp only [List.mem_singleton] at hcp
    rw [hcp]
    decide
  have h2 := (tolerance_boundary_inclusive
    [{ date := 31, probability := 9/10 }] { date := 0, impact := none }).2 hfar
  exact ⟨(tolerance_boundary_inclusive _ _).1
      ⟨{ date := 30, probability := 9/10 }, by simp, by decide⟩, h2.1, h2.2⟩

/-- C4: the association is one-to-at-most-one on the event side — for every
event the associated change point is unique when it exists — while
many-to-one is realized: two distinct events can be associated with the
same change point. -/
theorem event_matches_at_most_one_changePoint :
    (∀ (cps : List ChangePoint) (e : Event),
      findAssociatedCP cps e.date = none ∨
      ∃! cp, findAssociatedCP cps e.date = some cp) ∧
    ∃ (cps : List ChangePoint) (e₁ e₂ : Event) (cp : ChangePoint),
      e₁ ≠ e₂ ∧ findAssociatedCP cps e₁.date = some cp ∧
      findAssociatedCP cps e₂.date = some cp := by
  constructor
  · intro cps e
    cases hfind : findAssociatedCP cps e.date with
    | none => exact Or.inl rfl
    | some c =>
      exact Or.inr ⟨c, rfl, fun y hy => (Option.some.inj hy).symm⟩
  · refine ⟨[{ date := 0, probability := 9/10 }],
      { date := 1, impact := none }, { date := 2, impact := none },
      { date := 0, probability := 9/10 }, by decide, ?_, ?_⟩ <;>
      rw [findAssociatedCP, List.find?_cons_of_pos _ (by decide)]

/-- C4 witness: on a concrete singleton change-point list and event, the
association is unique. -/
theorem event_matches_at_most_one_changePoint_witness :
    findAssociatedCP [{ date := 0, probability := 9/10 }] (1 : Int) = none ∨
    ∃! cp, findAssociatedCP [{ date := 0, probability := 9/10 }] (1 : Int) =
      some cp :=
  event_matches_at_most_one_changePoint.1 [{ date := 0, probability := 9/10 }]
    { date := 1, impact := none }

/-- C5 counterexample: when the caller supplies no probability threshold, the
change-point retrieval request carries min_probability 0.8, not 0.5. -/
theorem getChangePoints_default_counterexample :
    (getChangePoints).min_probability ≠ 1/2 ∧
    (getChangePoints).min_probability = 8/10 ∧
    dashboardInitialMinProbability = 8/10 := by
  refine ⟨?_, rfl, rfl⟩
  show (8 : ℚ)/10 ≠ 1/2
  norm_num

/-- C5 amended: when no probability threshold is supplied by the caller,
change-point retrieval uses a default threshold of 0.8 (both the API layer
default and the Dashboard's initial filter state), and retention keeps
exactly the change points whose probability exceeds the threshold. -/
theorem changePoint_retrieval_default :
    getChangePoints.min_probability = 8/10 ∧
    dashboardInitialMinProbability = 8/10 ∧
    ∀ (threshold : ℚ) (cps : List ChangePoint) (cp : ChangePoint),
      cp ∈ retainChangePoints threshold cps ↔
        cp ∈ cps ∧ threshold < cp.probability := by
  refine ⟨rfl, rfl, fun threshold cps cp => ?_⟩
  simp [retainChangePoints, List.mem_filter]

/-- C5 amended witness: a probability-0.6 change point survives retention at
the spec default threshold 0.5 but the code's retrieval default is 0.8. -/
theorem changePoint_retrieval_default_witness :
    ({ date := 3, probability := 6/10 } : ChangePoint) ∈
      retainChangePoints (1/2) [{ date := 3, probability := 6/10 }] :=
  (changePoint_retrieval_default.2.2 (1/2)
      [{ date := 3, probability := 6/10 }] { date := 3, probability := 6/10 }).mpr
    ⟨by simp, by norm_num⟩

/-- C10: the volatility change of an impact row equals volatility_after −
volatility_before when both fields are present, and is 0 (a plain number,
never NaN or undefined) whenever either field is missing. -/
theorem volatilityChange_total (cps : List ChangePoint) (e : Event) :
    (∀ imp va vb, e.impact = some imp → imp.volatility_after = some va →
      imp.volatility_before = some vb →
      (mkImpactRow cps e).volatilityChange = va - vb) ∧
    ((e.impact.bind Impact.volatility_after = none ∨
      e.impact.bind Impact.volatility_before = none) →
      (mkImpactRow cps e).volatilityChange = 0) := by
  constructor
  · intro imp va vb himp hva hvb
    simp [mkImpactRow, himp, hva, hvb, jsSub, jsOrZero]
  · intro hmiss
    rcases hmiss with hafter | hbefore
    · simp only [mkImpactRow, hafter]
      cases e.impact.bind Impact.volatility_before <;> simp [jsSub, jsOrZero]
    · simp only [mkImpactRow, hbefore]
      cases e.impact.bind Impact.volatility_after <;> simp [jsSub, jsOrZero]

/-- C10 witness: a concrete event with both volatility fields yields their
difference, and one with a missing volatility_before yields 0. -/
theorem volatilityChange_total_witness :
    (mkImpactRow []
      ⟨0, some ⟨none, none, none, none, some (1/4), some (1/2)⟩⟩).volatilityChange
        = 1/2 - 1/4 ∧
    (mkImpactRow []
      ⟨0, some ⟨none, none, none, none, none, some (1/2)⟩⟩).volatilityChange
        = 0 :=
  ⟨(volatilityChange_total [] _).1 _ _ _ rfl rfl rfl,
   (volatilityChange_total [] _).2 (Or.inr rfl)⟩

/-- C1 counterexample: for an event at day 0 with chronologically ordered
change points at days -10 and 5, both inside the ±30-day window, the code
associates the event with the change point at day -10 (absolute offset 10)
even though the change point at day 5 (absolute offset 5) is strictly
nearer — the correlator does not pick the nearest change point. -/
theorem findAssociatedCP_not_nearest_counterexample :
    findAssociatedCP [{ date := -10, probability := 9/10 },
        { date := 5, probability := 8/10 }] 0 =
      some { date := -10, probability := 9/10 } ∧
    ({ date := 5, probability := 8/10 } : ChangePoint) ∈
      [({ date := -10, probability := 9/10 } : ChangePoint),
        { date := 5, probability := 8/10 }] ∧
    (dayDiff (5 : Int) 0).natAbs ≤ 30 ∧
    (dayDiff (5 : Int) 0).natAbs < (dayDiff (-10 : Int) 0).natAbs := by
  refine ⟨?_, by simp, by decide, by decide⟩
  rw [findAssociatedCP, List.find?_cons_of_pos _ (by decide)]

/-- C1 amended: for every event with at least one change point inside the
±30-day window, the correlator associates the event with the first change
point in list order whose date lies within the window (for a chronologically
sorted list, the chronologically earliest in-window change point), which
need not be the nearest by absolute day offset. -/
theorem findAssociatedCP_first_in_window (cps : List ChangePoint) (d : Int)
    (h : ∃ cp ∈ cps, (dayDiff cp.date d).natAbs ≤ 30) :
    ∃ l₁ cp l₂, cps = l₁ ++ cp :: l₂ ∧
      findAssociatedCP cps d = some cp ∧
      (dayDiff cp.date d).natAbs ≤ 30 ∧
      ∀ x ∈ l₁, ¬((dayDiff x.date d).natAbs ≤ 30) := by
  induction cps with
  | nil => simp at h
  | cons c cs ih =>
    by_cases hc : (dayDiff c.date d).natAbs ≤ 30
    · refine ⟨[], c, cs, rfl, ?_, hc, by simp⟩
      rw [findAssociatedCP, List.find?_cons_of_pos _ (by simpa using hc)]
    · have h' : ∃ cp ∈ cs, (dayDiff cp.date d).natAbs ≤ 30 := by
        rcases h with ⟨cp, hmem, hcp⟩
        rcases List.mem_cons.mp hmem with rfl | hmem'
        · exact absurd hcp hc
        · exact ⟨cp, hmem', hcp⟩
      rcases ih h' with ⟨l₁, cp, l₂, heq, hfind, hwin, hfirst⟩
      refine ⟨c :: l₁, cp, l₂, by rw [heq]; rfl, ?_, hwin, ?_⟩
      · rw [findAssociatedCP, List.find?_cons_of_neg _ (by simpa using hc)]
        exact hfind
      · intro x hx
        rcases List.mem_cons.mp hx with rfl | hx'
        · exact hc
        · exact hfirst x hx'

/-- C1 amended witness: the amended selection rule applied to the concrete
counterexample configuration. -/
theorem findAssociatedCP_first_in_window_witness :
    ∃ l₁ cp l₂,
      ([{ date := -10, probability := 9/10 },
        { date := 5, probability := 8/10 }] : List ChangePoint) =
        l₁ ++ cp :: l₂ ∧
      findAssociatedCP [{ date := -10, probability := 9/10 },
        { date := 5, probability := 8/10 }] 0 = some cp ∧
      (dayDiff cp.date 0).natAbs ≤ 30 ∧
      ∀ x ∈ l₁, ¬((dayDiff x.date 0).natAbs ≤ 30) :=
  findAssociatedCP_first_in_window _ 0
    ⟨{ date := -10, probability := 9/10 }, by simp, by decide⟩

/-- C9: the change-point bar chart shows at most 10 entries — exactly
min(10, number of change points) — ordered by non-increasing probability;
every displayed entry is an input change point and every omitted change
point has probability at most that of every displayed one (the chart keeps
the highest-probability change points). -/
theorem chartData_top10 (cps : List ChangePoint) :
    (chartDataChangePoints cps).length = min 10 cps.length ∧
    (chartDataChangePoints cps).Pairwise
      (fun a b => b.probability ≤ a.probability) ∧
    (∀ c ∈ chartDataChangePoints cps, c ∈ cps) ∧
    (∀ x ∈ cps, x ∉ chartDataChangePoints cps →
      ∀ y ∈ chartDataChangePoints cps, x.probability ≤ y.probability) := by
  have hperm := List.mergeSort_perm cps
    (fun a b => decide (b.probability ≤ a.probability))
  have hsorted := @List.sorted_mergeSort ChangePoint
    (fun a b => decide (b.probability ≤ a.probability))
    (fun a b c hab hbc => by
      simp only [decide_eq_true_eq] at hab hbc ⊢
      exact le_trans hbc hab)
    (fun a b => by
      simp only [Bool.or_eq_true, decide_eq_true_eq]
      exact le_total b.probability a.probability)
    cps
  have hsortedProp : (cps.mergeSort
      (fun a b => decide (b.probability ≤ a.probability))).Pairwise
      (fun a b => b.probability ≤ a.probability) :=
    hsorted.imp (fun h => of_decide_eq_true h)
  have hchart : chartDataChangePoints cps =
      (cps.mergeSort (fun a b => decide (b.probability ≤ a.probability))).take 10 :=
    rfl
  refine ⟨?_, ?_, ?_, ?_⟩
  · rw [hchart, List.length_take, hperm.length_eq]
  · rw [hchart]
    exact hsortedProp.sublist (List.take_sublist _ _)
  · intro c hc
    rw [hchart] at hc
    exact hperm.mem_iff.mp (List.Sublist.mem hc (List.take_sublist _ _))
  · intro x hx hnx y hy
    set S := cps.mergeSort (fun a b => decide (b.probability ≤ a.probability))
      with hS
    have hxS : x ∈ S := hperm.mem_iff.mpr hx
    have hsplit : S.take 10 ++ S.drop 10 = S := List.take_append_drop 10 S
    have hx' : x ∈ S.take 10 ∨ x ∈ S.drop 10 := by
      rw [← hsplit] at hxS
      exact List.mem_append.mp hxS
    rcases hx' with hx' | hx'
    · exact absurd (hchart ▸ hx') hnx
    · have hP : (S.take 10 ++ S.drop 10).Pairwise
          (fun a b => b.probability ≤ a.probability) := by
        rw [hsplit]
        exact hsortedProp
      exact (List.pairwise_append.mp hP).2.2 y (hchart ▸ hy) x hx'

/-- C9 witness: with a single change point the chart displays exactly it, and
it is an input change point. -/
theorem chartData_top10_witness :
    ({ date := 0, probability := 1 } : ChangePoint) ∈
      [({ date := 0, probability := 1 } : ChangePoint)] :=
  (chartData_top10 [{ date := 0, probability := 1 }]).2.2.1
    { date := 0, probability := 1 }
    (by rw [chartDataChangePoints, List.mergeSort_singleton]; simp)

/-- C8: the impact table's rows are exactly the events carrying an impact
record (events without one are omitted), in non-increasing order of absolute
impact magnitude, where each row's magnitude is the percent_change of its
event's impact record (read with the JS default of 0 when absent). -/
theorem impactData_rows (events : List Event) (cps : List ChangePoint) :
    ((impactData events cps).map ImpactRow.event).Perm
      (events.filter (fun e => e.impact.isSome)) ∧
    (impactData events cps).Pairwise
      (fun a b => |b.impactMagnitude| ≤ |a.impactMagnitude|) ∧
    ∀ r ∈ impactData events cps,
      r.impactMagnitude = jsOrZero (r.event.impact.bind Impact.percent_change) := by
  have hperm := List.mergeSort_perm
    ((events.filter (fun e => e.impact.isSome)).map (mkImpactRow cps))
    (fun a b => decide (|b.impactMagnitude| ≤ |a.impactMagnitude|))
  refine ⟨?_, ?_, ?_⟩
  · have h1 : (((events.filter (fun e => e.impact.isSome)).map
        (mkImpactRow cps)).map ImpactRow.event) =
        events.filter (fun e => e.impact.isSome) := by
      rw [List.map_map]
      have hcomp : (ImpactRow.event ∘ mkImpactRow cps) = id :=
        funext (fun e => rfl)
      rw [hcomp, List.map_id]
    exact h1 ▸ hperm.map ImpactRow.event
  · have hsorted := @List.sorted_mergeSort ImpactRow
      (fun a b => decide (|b.impactMagnitude| ≤ |a.impactMagnitude|))
      (fun a b c hab hbc => by
        simp only [decide_eq_true_eq] at hab hbc ⊢
        exact le_trans hbc hab)
      (fun a b => by
        simp only [Bool.or_eq_true, decide_eq_true_eq]
        exact le_total _ _)
      ((events.filter (fun e => e.impact.isSome)).map (mkImpactRow cps))
    exact hsorted.imp (fun h => of_decide_eq_true h)
  · intro r hr
    have hr' : r ∈ (events.filter (fun e => e.impact.isSome)).map
        (mkImpactRow cps) := hperm.mem_iff.mp hr
    rcases List.mem_map.mp hr' with ⟨e, _, rfl⟩
    rfl

/-- C8 witness: a concrete one-event table where the row magnitude is the
event's percent_change. -/
theorem impactData_rows_witness :
    (mkImpactRow [] ⟨0, some ⟨none, none, some 5, none, none, none⟩⟩).impactMagnitude
      = jsOrZero ((mkImpactRow []
          ⟨0, some ⟨none, none, some 5, none, none, none⟩⟩).event.impact.bind
          Impact.percent_change) :=
  (impactData_rows [⟨0, some ⟨none, none, some 5, none, none, none⟩⟩] []).2.2
    (mkImpactRow [] ⟨0, some ⟨none, none, some 5, none, none, none⟩⟩)
    (by simp [impactData, List.filter, List.mergeSort_singleton])

/-- C6: for every valid price series (at least 2 observations, strictly
increasing dates, strictly positive prices) the derived return series has
length exactly len(prices) − 1, and the i-th return is
log(prices[i+1] / prices[i]), dated at observation i+1, for any logarithm
function. -/
theorem computeReturns_spec {α : Type} [LinearOrderedField α] (log : α → α)
    (ps : List (PriceObs α)) (h : validPriceSeries ps) :
    (computeReturns log ps).length = ps.length - 1 ∧
    ∀ i, i + 1 < ps.length →
      ∃ a b, ps[i]? = some a ∧ ps[i + 1]? = some b ∧
        (computeReturns log ps)[i]? =
          some { date := b.date, log_return := log (b.price / a.price) } := by
  constructor
  · rw [computeReturns, List.length_map, List.length_zip, List.length_tail]
    omega
  · intro i hi
    have hia : i < ps.length := by omega
    refine ⟨ps[i], ps[i + 1], List.getElem?_eq_getElem hia,
      List.getElem?_eq_getElem hi, ?_⟩
    rw [computeReturns, List.getElem?_map]
    have hzip : (ps.zip ps.tail)[i]? = some (ps[i], ps[i + 1]) := by
      rw [List.getElem?_zip_eq_some]
      refine ⟨List.getElem?_eq_getElem hia, ?_⟩
      rw [List.getElem?_tail]
      exact List.getElem?_eq_getElem hi
    rw [hzip]
    rfl

/-- C6 witness: a concrete valid two-observation series yields exactly one
return. -/
theorem computeReturns_spec_witness :
    validPriceSeries ([⟨0, 2⟩, ⟨1, 3⟩] : List (PriceObs ℚ)) ∧
    (computeReturns id ([⟨0, 2⟩, ⟨1, 3⟩] : List (PriceObs ℚ))).length = 2 - 1 := by
  have hval : validPriceSeries ([⟨0, 2⟩, ⟨1, 3⟩] : List (PriceObs ℚ)) := by
    refine ⟨by norm_num, ?_, ?_⟩
    · simp [List.chain'_cons]
    · intro p hp
      rcases List.mem_cons.mp hp with rfl | hp'
      · norm_num
      · rcases List.mem_singleton.mp hp' with rfl
        norm_num
  exact ⟨hval, (computeReturns_spec id _ hval).1⟩

theorem pickMode_eq_none {l : List Candidate} (h : pickMode l = none) :
    l = [] := by
  cases l with
  | nil => rfl
  | cons a as => simp [pickMode] at h

theorem nmsGreedy_subset (w : Nat) (l : List Candidate) :
    ∀ x ∈ nmsGreedy w l, x ∈ l := by
  induction l using nmsGreedy.induct w with
  | case1 l hm =>
    intro x hx
    rw [nmsGreedy.eq_def, hm] at hx
    simp at hx
  | case2 l c hm ih =>
    intro x hx
    rw [nmsGreedy.eq_def, hm] at hx
    rcases List.mem_cons.mp hx with rfl | hx'
    · exact pickMode_mem hm
    · exact List.Sublist.mem (ih x hx')
        ((List.filter_sublist _).trans (List.erase_sublist _ _))

theorem nmsGreedy_pairwise_sep (w : Nat) (l : List Candidate) :
    (nmsGreedy w l).Pairwise (fun a b => w ≤ Nat.dist a.1 b.1) := by
  induction l using nmsGreedy.induct w with
  | case1 l hm =>
    rw [nmsGreedy.eq_def, hm]
    exact List.Pairwise.nil
  | case2 l c hm ih =>
    rw [nmsGreedy.eq_def, hm]
    refine List.Pairwise.cons ?_ ih
    intro b hb
    have hb' := nmsGreedy_subset w _ b hb
    have hsep := (List.mem_filter.mp hb').2
    simp only [decide_eq_true_eq] at hsep
    rw [Nat.dist_comm]
    exact hsep

theorem perm_cons_erase_candidate {c : Candidate} {l : List Candidate}
    (h : c ∈ l) : l.Perm (c :: l.erase c) := by
  induction l with
  | nil => cases h
  | cons a as ih =>
    by_cases hac : a = c
    · subst hac
      rw [List.erase_cons_head]
    · have hcas : c ∈ as := by
        rcases List.mem_cons.mp h with h' | h'
        · exact absurd h'.symm hac
        · exact h'
      rw [List.erase_cons_tail (by simpa using hac)]
      exact ((ih hcas).cons a).trans (List.Perm.swap c a _)

theorem nmsGreedy_of_pairwise_sep (w : Nat) (hw : 1 ≤ w) (l : List Candidate)
    (hl : l.Pairwise (fun a b => w ≤ Nat.dist a.1 b.1)) :
    (nmsGreedy w l).Perm l := by
  induction l using nmsGreedy.induct w with
  | case1 l hm =>
    rw [nmsGreedy.eq_def, hm, pickMode_eq_none hm]
  | case2 l c hm ih =>
    have hc : c ∈ l := pickMode_mem hm
    have hnd : l.Nodup := by
      refine hl.imp ?_
      intro a b hab heq
      rw [heq] at hab
      simp only [Nat.dist_self] at hab
      omega
    have hsymm : Symmetric (fun a b : Candidate => w ≤ Nat.dist a.1 b.1) := by
      intro a b hab
      rw [Nat.dist_comm]
      exact hab
    have hfe : (l.erase c).filter (fun d => decide (w ≤ Nat.dist d.1 c.1)) =
        l.erase c := by
      rw [List.filter_eq_self]
      intro d hd
      have hdl := hnd.mem_erase_iff.mp hd
      simp only [decide_eq_true_eq]
      exact hl.forall hsymm hdl.2 hc hdl.1
    have hstep : nmsGreedy w l = c :: nmsGreedy w
        ((l.erase c).filter (fun d => decide (w ≤ Nat.dist d.1 c.1))) := by
      rw [nmsGreedy.eq_def, hm]
    rw [hstep, hfe]
    rw [hfe] at ih
    have hsub : (l.erase c).Pairwise (fun a b => w ≤ Nat.dist a.1 b.1) :=
      hl.sublist (List.erase_sublist _ _)
    exact (List.Perm.cons c (ih hsub)).trans (perm_cons_erase_candidate hc).symm

theorem mem_summarize_bounds (threshold : ℚ) (minSep : Nat) (probs : List ℚ) :
    ∀ x ∈ summarize threshold minSep probs,
      x.1 < probs.length ∧ threshold < x.2 := by
  intro x hx
  have hxc : x ∈ probs.enum.filter (fun c => decide (threshold < c.2)) :=
    nmsGreedy_subset minSep _ x hx
  have h1 := List.mem_filter.mp hxc
  constructor
  · have hget := List.mem_enum_iff_getElem?.mp h1.1
    by_contra hge
    rw [List.getElem?_eq_none (by omega)] at hget
    exact absurd hget (by simp)
  · simpa using h1.2

theorem summarize_fst_nodup (threshold : ℚ) (minSep : Nat) (probs : List ℚ)
    (hw : 1 ≤ minSep) :
    ((summarize threshold minSep probs).map Prod.fst).Nodup := by
  have hp := nmsGreedy_pairwise_sep minSep
    (probs.enum.filter (fun c => decide (threshold < c.2)))
  rw [List.Nodup, List.pairwise_map]
  refine hp.imp ?_
  intro a b hab heq
  rw [heq] at hab
  simp only [Nat.dist_self] at hab
  omega

theorem find?_fst_eq_of_nodup {out : List Candidate}
    (hnd : (out.map Prod.fst).Nodup) {x : Candidate} (hx : x ∈ out) :
    out.find? (fun c => c.1 = x.1) = some x := by
  induction out with
  | nil => simp at hx
  | cons a as ih =>
    rw [List.map_cons, List.nodup_cons] at hnd
    rcases List.mem_cons.mp hx with rfl | hx'
    · exact List.find?_cons_of_pos _ (by simp)
    · have hne : a.1 ≠ x.1 := by
        intro heq
        exact hnd.1 (heq ▸ List.mem_map_of_mem Prod.fst hx')
      rw [List.find?_cons_of_neg _ (by simpa using hne)]
      exact ih hnd.2 hx'

theorem mem_reextract_iff (threshold : ℚ) (hθ : 0 ≤ threshold) (n : Nat)
    (out : List Candidate) (hidx : ∀ x ∈ out, x.1 < n)
    (hprob : ∀ x ∈ out, threshold < x.2)
    (hnd : (out.map Prod.fst).Nodup) (x : Candidate) :
    x ∈ (posteriorOfChangePoints n out).enum.filter
      (fun c => decide (threshold < c.2)) ↔ x ∈ out := by
  rw [List.mem_filter, List.mem_enum_iff_getElem?]
  constructor
  · rintro ⟨hget, hθx⟩
    simp only [decide_eq_true_eq] at hθx
    by_cases hxn : x.1 < n
    · rw [posteriorOfChangePoints, List.getElem?_map,
        List.getElem?_range hxn] at hget
      cases hfind : out.find? (fun c => c.1 = x.1) with
      | none =>
        rw [Option.map_some', hfind] at hget
        have hx0 : x.2 = 0 := (Option.some.inj hget).symm
        rw [hx0] at hθx
        exact absurd hθx (by linarith)
      | some c =>
        rw [Option.map_some', hfind] at hget
        have hx2 : x.2 = c.2 := (Option.some.inj hget).symm
        have hcmem := List.mem_of_find?_eq_some hfind
        have hc1 : c.1 = x.1 := by simpa using List.find?_some hfind
        have hcx : c = x := Prod.ext hc1 hx2.symm
        exact hcx ▸ hcmem
    · have hlen : (posteriorOfChangePoints n out).length = n := by
        rw [posteriorOfChangePoints, List.length_map, List.length_range]
      rw [List.getElem?_eq_none (by omega)] at hget
      exact absurd hget (by simp)
  · intro hx
    have hxn := hidx x hx
    refine ⟨?_, by simpa using hprob x hx⟩
    rw [posteriorOfChangePoints, List.getElem?_map, List.getElem?_range hxn,
      Option.map_some', find?_fst_eq_of_nodup hnd hx]

/-- C7: the Posterior Summarizer's non-maximum suppression is idempotent —
re-expanding the emitted ChangePoint set into a posterior vector and
summarizing again yields the same ChangePoint set (as a permutation),
for any nonnegative threshold and positive minimum-separation window. -/
theorem summarizer_idempotent (threshold : ℚ) (minSep : Nat) (probs : List ℚ)
    (hθ : 0 ≤ threshold) (hw : 1 ≤ minSep) :
    (summarize threshold minSep (posteriorOfChangePoints probs.length
      (summarize threshold minSep probs))).Perm
      (summarize threshold minSep probs) := by
  have hidx : ∀ x ∈ summarize threshold minSep probs, x.1 < probs.length :=
    fun x hx => (mem_summarize_bounds threshold minSep probs x hx).1
  have hprob : ∀ x ∈ summarize threshold minSep probs, threshold < x.2 :=
    fun x hx => (mem_summarize_bounds threshold minSep probs x hx).2
  have hnd := summarize_fst_nodup threshold minSep probs hw
  have hmem := mem_reextract_iff threshold hθ probs.length
    (summarize threshold minSep probs) hidx hprob hnd
  have henum_nd : (posteriorOfChangePoints probs.length
      (summarize threshold minSep probs)).enum.Nodup :=
    List.Nodup.of_map Prod.fst
      (by rw [List.enum_map_fst]; exact List.nodup_range _)
  have hcand₂nd := henum_nd.filter (fun c => decide (threshold < c.2))
  have houtnd : (summarize threshold minSep probs).Nodup :=
    List.Nodup.of_map Prod.fst hnd
  have hperm₂ : ((posteriorOfChangePoints probs.length
      (summarize threshold minSep probs)).enum.filter
      (fun c => decide (threshold < c.2))).Perm
      (summarize threshold minSep probs) := by
    refine List.perm_of_nodup_nodup_toFinset_eq hcand₂nd houtnd ?_
    ext a
    simp only [List.mem_toFinset]
    exact hmem a
  have hsymm : ∀ {a b : Candidate},
      minSep ≤ Nat.dist a.1 b.1 → minSep ≤ Nat.dist b.1 a.1 := by
    intro a b hab
    rw [Nat.dist_comm]
    exact hab
  have hsep_out : (summarize threshold minSep probs).Pairwise
      (fun a b => minSep ≤ Nat.dist a.1 b.1) :=
    nmsGreedy_pairwise_sep minSep _
  have hsep₂ := (hperm₂.pairwise_iff hsymm).mpr hsep_out
  exact (nmsGreedy_of_pairwise_sep minSep hw _ hsep₂).trans hperm₂

/-- C7 witness: the idempotence property at a concrete posterior vector with
the spec defaults (threshold 0.5, minimum separation 5). -/
theorem summarizer_idempotent_witness :
    (summarize (1/2) 5 (posteriorOfChangePoints
      ([9/10, 0, 0, 0, 0, 0, 7/10] : List ℚ).length
      (summarize (1/2) 5 [9/10, 0, 0, 0, 0, 0, 7/10]))).Perm
      (summarize (1/2) 5 [9/10, 0, 0, 0, 0, 0, 7/10]) :=
  summarizer_idempotent (1/2) 5 [9/10, 0, 0, 0, 0, 0, 7/10]
    (by norm_num) (by omega)

end BrentOil
